import Mathlib

/-!
Shallow embedding of `git-stacked` (src/main.rs).

The program infers the ancestry tree of local git branches:
`get_parent_of_relationships` finds for each branch its nearest ancestor
branch via pairwise merge-base queries, `build_children_and_roots` turns the
parent relation into a children forest plus a root set, and `print_tree`
renders the forest as an ASCII tree.

Modelling choices:
* `Oid` (git commit id) is modelled as `Nat` — the code only ever compares
  oids for equality and passes them to the merge-base oracle.
* `repo.merge_base` is modelled as an abstract oracle
  `Nat → Nat → MergeBaseResult`, where `MergeBaseResult.notFound` models
  `Err(e)` with `e.code() == ErrorCode::NotFound` and `MergeBaseResult.err c`
  models any other `git2::Error` (with `c` its payload).
* Rust's `HashMap<String, String>` (`ParentOfMap`) is modelled as an
  association list with key-replacing insert (`hmInsert`);
  `BTreeMap<String, Vec<String>>` (`ChildrenMap`) as an association list
  kept sorted by key (`cmInsert`).
* `println!` / `eprintln!` output is modelled as the pair of stdout lines
  and stderr lines returned by `print_tree`.
* The recursion of `print_ascii_tree_recursive` is modelled with explicit
  fuel: the Rust function diverges on a cyclic children map, and the fuel
  bounds the recursion depth without changing any line that is emitted.
-/

namespace GitStacked

/-- `MAINLINE_BRANCH_NAMES_ARRAY` from src/main.rs line 5. -/
def MAINLINE_BRANCH_NAMES_ARRAY : List String :=
  ["main", "master", "develop", "dev", "local-dev"]

/-- `RED_START` from src/main.rs line 7 (bright red escape). -/
def RED_START : String := "\x1B[91m"

/-- `COLOR_RESET` from src/main.rs line 8. -/
def COLOR_RESET : String := "\x1B[0m"

/-- `DETACHED_PREFIX_TEXT` from src/main.rs line 9. -/
def DETACHED_PREFIX_TEXT : String := "(detached)"

/-- `BranchInfo` from src/main.rs lines 20-24: a branch name and its tip oid. -/
structure BranchInfo where
  name : String
  oid : Nat
deriving DecidableEq

/-- Result of one `repo.merge_base(a, b)` call: `ok base` models `Ok(base)`,
`notFound` models `Err(e)` with code `ErrorCode::NotFound`, and `err c` models
any other error (payload `c`). -/
inductive MergeBaseResult where
  | ok (base : Nat)
  | notFound
  | err (code : Nat)
deriving DecidableEq

/-- The merge-base oracle: the only way the core observes the commit graph. -/
abbrev Oracle := Nat → Nat → MergeBaseResult

/-- Lexicographic strict order on char lists, one char at a time. This is
Rust's `Ord` for `String` (byte order on UTF-8 agrees with codepoint order),
used by `Vec::sort` and by `BTreeMap`'s key order. -/
def lexLt : List Char → List Char → Bool
  | [], [] => false
  | [], _ :: _ => true
  | _ :: _, [] => false
  | c :: cs, d :: ds => if c = d then lexLt cs ds else decide (c.toNat < d.toNat)

/-- Strict lexicographic order on strings (Rust `String` `Ord::lt`). -/
def strLt (a b : String) : Prop := lexLt a.data b.data = true

/-- Non-strict lexicographic order on strings (Rust `String` `Ord::le`). -/
def strLe (a b : String) : Prop := strLt a b ∨ a = b

instance : DecidableRel strLt := fun a b =>
  inferInstanceAs (Decidable (lexLt a.data b.data = true))

instance : DecidableRel strLe := fun a b =>
  inferInstanceAs (Decidable (strLt a b ∨ a = b))

/-- `HashMap::insert` on the association-list model of `ParentOfMap`:
replaces the value when the key is present, appends otherwise. -/
def hmInsert (k v : String) : List (String × String) → List (String × String)
  | [] => [(k, v)]
  | (k', v') :: rest => if k' = k then (k, v) :: rest else (k', v') :: hmInsert k v rest

/-- The inner candidate loop of `get_parent_of_relationships`
(src/main.rs lines 97-135): scans the candidate list, tracking the current
best parent, and either aborts with a non-NotFound oracle error or returns
the final best parent. -/
def resolveInner (oracle : Oracle) (child : BranchInfo) :
    List BranchInfo → Option BranchInfo → Except Nat (Option BranchInfo)
  | [], best => .ok best
  | cand :: rest, best =>
    if child.name = cand.name ∨ cand.oid = child.oid then
      resolveInner oracle child rest best
    else
      match oracle cand.oid child.oid with
      | .ok base =>
        if base = cand.oid then
          match best with
          | none => resolveInner oracle child rest (some cand)
          | some b =>
            if b.oid ≠ cand.oid then
              match oracle b.oid cand.oid with
              | .ok base2 =>
                if base2 = b.oid then resolveInner oracle child rest (some cand)
                else resolveInner oracle child rest (some b)
              | .notFound => resolveInner oracle child rest (some b)
              | .err c => .error c
            else resolveInner oracle child rest (some b)
        else resolveInner oracle child rest best
      | .notFound => resolveInner oracle child rest best
      | .err c => .error c

/-- The outer child loop of `get_parent_of_relationships`
(src/main.rs lines 90-139), accumulating the parent-of map. -/
def gporGo (oracle : Oracle) (all : List BranchInfo) :
    List BranchInfo → List (String × String) → Except Nat (List (String × String))
  | [], acc => .ok acc
  | child :: rest, acc =>
    match resolveInner oracle child all none with
    | .error c => .error c
    | .ok none => gporGo oracle all rest acc
    | .ok (some p) => gporGo oracle all rest (hmInsert child.name p.name acc)

/-- `get_parent_of_relationships` from src/main.rs lines 84-142, with the
repository abstracted into the merge-base oracle. -/
def get_parent_of_relationships (oracle : Oracle) (branches : List BranchInfo) :
    Except Nat (List (String × String)) :=
  gporGo oracle branches branches []

/-- `ChildrenAndRoots` from src/main.rs lines 144-147. `children_map` models
the `BTreeMap<String, Vec<String>>` as a key-sorted association list. -/
structure ChildrenAndRoots where
  children_map : List (String × List String)
  roots : List String

/-- `BTreeMap::entry(parent).or_default().push(child)` on the key-sorted
association-list model of `ChildrenMap`. -/
def cmInsert (parent child : String) :
    List (String × List String) → List (String × List String)
  | [] => [(parent, [child])]
  | (k, vs) :: rest =>
    if strLt parent k then (parent, [child]) :: (k, vs) :: rest
    else if parent = k then (k, vs ++ [child]) :: rest
    else (k, vs) :: cmInsert parent child rest

/-- `build_children_and_roots` from src/main.rs lines 150-186: group children
under their parents (key-sorted map, each child list sorted), and compute the
sorted root list as all branch names minus the parent-of keys. The Rust
`HashSet` difference is modelled by dedup-then-filter; both sides produce the
same elements without duplicates, and both are sorted before use. -/
def build_children_and_roots (branches : List BranchInfo)
    (parent_of : List (String × String)) : ChildrenAndRoots :=
  let cm := parent_of.foldl (fun m cp => cmInsert cp.2 cp.1 m) []
  let children_map := cm.map (fun kv => (kv.1, List.insertionSort strLe kv.2))
  let allNames := (branches.map (·.name)).dedup
  let childKeys := parent_of.map Prod.fst
  let roots := List.insertionSort strLe
    (allNames.filter (fun n => !(childKeys.contains n)))
  ⟨children_map, roots⟩

/-- `BTreeMap::get` on the association-list model. -/
def lookupChildren (p : String) : List (String × List String) → Option (List String)
  | [] => none
  | (k, vs) :: rest => if k = p then some vs else lookupChildren p rest

/-- `print_ascii_tree_recursive` from src/main.rs lines 33-57, returning the
emitted stdout lines. `fuel` bounds the recursion depth (the Rust function
recurses without bound on a cyclic map); every emitted line is exactly the
Rust `println!` line: `pfx ++ connector ++ child name`. -/
def print_ascii_tree_recursive (fuel : Nat) (parent : String)
    (cm : List (String × List String)) (pfx : String) : List String :=
  match fuel with
  | 0 => []
  | fuel + 1 =>
    match lookupChildren parent cm with
    | none => []
    | some children =>
      let n := children.length
      children.enum.flatMap (fun ic =>
        let isLast := ic.1 = n - 1
        let connector := if isLast then "└── " else "├── "
        (pfx ++ connector ++ ic.2) ::
          print_ascii_tree_recursive fuel ic.2 cm
            (pfx ++ (if isLast then "    " else "│   ")))

/-- The branch-header display name computed inline in `print_tree`
(src/main.rs lines 211-218 and 228-235): mainline names are printed bare,
all other roots get the highlighted detached marker. -/
def displayName (name : String) : String :=
  if MAINLINE_BRANCH_NAMES_ARRAY.contains name then name
  else RED_START ++ DETACHED_PREFIX_TEXT ++ COLOR_RESET ++ " " ++ name

/-- The `eprintln!` warning text of src/main.rs lines 201-203. -/
def warningMessage : String :=
  "Warning: Could not determine clear root(s) for branch tree. Check for unusual branch structures."

/-- `print_tree` from src/main.rs lines 189-241, returning
`(stdout lines, stderr lines)`; the `.ok` mirrors the Rust `Result` return
(the function never constructs an error). -/
def print_tree (fuel : Nat) (branches : List BranchInfo)
    (parent_of : List (String × String)) (cm : List (String × List String))
    (roots : List String) : Except Nat (List String × List String) :=
  if roots.isEmpty ∧ ¬branches.isEmpty then
    if ¬parent_of.isEmpty then
      .ok (branches.map (·.name), [warningMessage])
    else
      .ok (branches.flatMap (fun bi =>
        displayName bi.name :: print_ascii_tree_recursive fuel bi.name cm ""), [])
  else
    .ok (roots.flatMap (fun r =>
      displayName r :: print_ascii_tree_recursive fuel r cm ""), [])

/-! ### Linear-chain instances used by the chain theorem (C1) -/

/-- A strictly linear chain of `N` branches for C1: branch `i` has name
`names i` and tip `tip i`; tips are ordered by index (smaller index = older
commit). -/
def chainBranches (names : Nat → String) (tip : Nat → Nat) (N : Nat) : List BranchInfo :=
  (List.range N).map (fun i => ⟨names i, tip i⟩)

/-- The expected parent relation for a linear chain: every branch except the
first has the immediately preceding branch as parent. -/
def chainParentOf (names : Nat → String) (N : Nat) : List (String × String) :=
  (List.range' 1 (N - 1)).map (fun i => (names i, names (i - 1)))

/-- The best-parent state of the inner loop for child `i` after the first `k`
chain candidates have been examined. -/
def chainBest (names : Nat → String) (tip : Nat → Nat) (i k : Nat) : Option BranchInfo :=
  if i = 0 ∨ k = 0 then none else some ⟨names (min k i - 1), tip (min k i - 1)⟩

/-! ### Order lemmas for the lexicographic string order -/


theorem lexLt_irrefl : ∀ xs : List Char, lexLt xs xs = false
  | [] => rfl
  | _ :: cs => by simp [lexLt, lexLt_irrefl cs]

theorem char_toNat_inj {c d : Char} (h : c.toNat = d.toNat) : c = d :=
  Char.eq_of_val_eq (UInt32.toNat.inj h)

theorem lexLt_trans : ∀ (xs ys zs : List Char),
    lexLt xs ys = true → lexLt ys zs = true → lexLt xs zs = true
  | [], [], _, h1, _ => by simp [lexLt] at h1
  | [], _ :: _, [], _, h2 => by simp [lexLt] at h2
  | [], _ :: _, _ :: _, _, _ => rfl
  | _ :: _, [], _, h1, _ => by simp [lexLt] at h1
  | _ :: _, _ :: _, [], _, h2 => by simp [lexLt] at h2
  | c :: cs, d :: ds, e :: es, h1, h2 => by
    simp only [lexLt] at h1 h2 ⊢
    by_cases hcd : c = d
    · subst hcd
      simp only [if_pos rfl] at h1
      by_cases hce : c = e
      · subst hce
        simp only [if_pos rfl] at h2 ⊢
        exact lexLt_trans _ _ _ h1 h2
      · simp only [if_neg hce] at h2 ⊢
        exact h2
    · simp only [if_neg hcd] at h1
      by_cases hde : d = e
      · subst hde
        simp only [if_neg hcd]
        exact h1
      · simp only [if_neg hde] at h2
        have h1' := of_decide_eq_true h1
        have h2' := of_decide_eq_true h2
        have hce : c.toNat < e.toNat := lt_trans h1' h2'
        have hne : c ≠ e := fun he => absurd (congrArg Char.toNat he) (Nat.ne_of_lt hce)
        simp [if_neg hne, hce]

theorem lexLt_connex : ∀ (xs ys : List Char), xs ≠ ys →
    lexLt xs ys = true ∨ lexLt ys xs = true
  | [], [], h => absurd rfl h
  | [], _ :: _, _ => Or.inl rfl
  | _ :: _, [], _ => Or.inr rfl
  | c :: cs, d :: ds, h => by
    by_cases hcd : c = d
    · subst hcd
      have : cs ≠ ds := fun he => h (by rw [he])
      rcases lexLt_connex cs ds this with h' | h'
      · exact Or.inl (by simp [lexLt, h'])
      · exact Or.inr (by simp [lexLt, h'])
    · have hn : c.toNat ≠ d.toNat := fun he => hcd (char_toNat_inj he)
      rcases Nat.lt_or_ge c.toNat d.toNat with h' | h'
      · exact Or.inl (by simp [lexLt, if_neg hcd, h'])
      · have h'' : d.toNat < c.toNat := lt_of_le_of_ne h' (Ne.symm hn)
        have hdc : d ≠ c := Ne.symm hcd
        exact Or.inr (by simp [lexLt, if_neg hdc, h''])

theorem strLt_irrefl (a : String) : ¬ strLt a a := by
  simp [strLt, lexLt_irrefl]

theorem strLt_trans {a b c : String} (h1 : strLt a b) (h2 : strLt b c) : strLt a c :=
  lexLt_trans _ _ _ h1 h2

theorem strLt_connex {a b : String} (h : a ≠ b) : strLt a b ∨ strLt b a :=
  lexLt_connex _ _ (fun he => h (String.ext he))

theorem strLt_asymm {a b : String} (h : strLt a b) : ¬ strLt b a := by
  intro h'
  exact strLt_irrefl a (strLt_trans h h')

theorem strLt_ne {a b : String} (h : strLt a b) : a ≠ b := by
  rintro rfl
  exact strLt_irrefl a h

instance : IsTrans String strLe where
  trans a b c h1 h2 := by
    rcases h1 with h1 | rfl
    · rcases h2 with h2 | rfl
      · exact Or.inl (strLt_trans h1 h2)
      · exact Or.inl h1
    · exact h2

instance : IsTotal String strLe where
  total a b := by
    by_cases h : a = b
    · exact Or.inl (Or.inr h)
    · rcases strLt_connex h with h' | h'
      · exact Or.inl (Or.inl h')
      · exact Or.inr (Or.inl h')


/-! ### Error propagation (C4) -/

/-- Any error returned by the inner candidate loop is the payload of a
non-NotFound oracle answer. -/
theorem resolveInner_error_source (oracle : Oracle) (child : BranchInfo) :
    ∀ (cands : List BranchInfo) (best : Option BranchInfo) (e : Nat),
      resolveInner oracle child cands best = .error e → ∃ x y, oracle x y = .err e := by
  intro cands
  induction cands with
  | nil => intro best e h; simp [resolveInner] at h
  | cons cand rest ih =>
    intro best e h
    simp only [resolveInner] at h
    split at h
    · exact ih _ _ h
    · split at h
      · split at h
        · split at h
          · exact ih _ _ h
          · split at h
            · split at h
              · split at h
                · exact ih _ _ h
                · exact ih _ _ h
              · exact ih _ _ h
              · rename_i hO2
                injection h with h
                exact ⟨_, _, by rw [hO2, h]⟩
            · exact ih _ _ h
        · exact ih _ _ h
      · exact ih _ _ h
      · rename_i hO
        injection h with h
        exact ⟨_, _, by rw [hO, h]⟩

/-- Any error returned by the outer loop is the payload of a non-NotFound
oracle answer. -/
theorem gporGo_error_source (oracle : Oracle) (all : List BranchInfo) :
    ∀ (rest : List BranchInfo) (acc : List (String × String)) (e : Nat),
      gporGo oracle all rest acc = .error e → ∃ x y, oracle x y = .err e := by
  intro rest
  induction rest with
  | nil => intro acc e h; simp [gporGo] at h
  | cons child rest ih =>
    intro acc e h
    simp only [gporGo] at h
    split at h
    · rename_i hR
      injection h with h
      exact resolveInner_error_source oracle child all none e (by rw [hR, h])
    · exact ih _ _ h
    · exact ih _ _ h

/-- C4: the Ancestry Resolver fails exactly on non-NotFound oracle errors:
if the oracle never returns a non-NotFound error (NotFound included among the
allowed answers), resolution succeeds; any error the resolver returns is the
payload of a non-NotFound oracle answer; and a non-NotFound oracle answer on
the first examined candidate aborts the inner loop immediately with exactly
that error. -/
theorem resolver_error_iff_oracle_error (oracle : Oracle) (branches : List BranchInfo) :
    ((∀ x y c, oracle x y ≠ .err c) →
      ∃ pf, get_parent_of_relationships oracle branches = .ok pf)
    ∧ (∀ e, get_parent_of_relationships oracle branches = .error e →
      ∃ x y, oracle x y = .err e)
    ∧ (∀ (child cand : BranchInfo) (rest : List BranchInfo) (best : Option BranchInfo) (e : Nat),
      ¬(child.name = cand.name ∨ cand.oid = child.oid) →
      oracle cand.oid child.oid = .err e →
      resolveInner oracle child (cand :: rest) best = .error e) := by
  refine ⟨?_, ?_, ?_⟩
  · intro hno
    cases hres : get_parent_of_relationships oracle branches with
    | ok pf => exact ⟨pf, rfl⟩
    | error e =>
      obtain ⟨x, y, hxy⟩ := gporGo_error_source oracle branches branches [] e hres
      exact absurd hxy (hno x y e)
  · intro e h
    exact gporGo_error_source oracle branches branches [] e h
  · intro child cand rest best e hskip hO
    simp [resolveInner, if_neg hskip, hO]

theorem resolver_error_iff_oracle_error_witness :
    ∃ pf, get_parent_of_relationships (fun _ _ => .notFound)
      [⟨"a", 0⟩, ⟨"b", 1⟩] = .ok pf :=
  (resolver_error_iff_oracle_error (fun _ _ => .notFound) [⟨"a", 0⟩, ⟨"b", 1⟩]).1
    (fun _ _ _ h => MergeBaseResult.noConfusion h)

/-! ### The replacement rule of the inner loop (C3) -/

/-- C3: when a best parent is recorded and a new candidate with a different
tip is an ancestor of the child, the candidate replaces the best parent
exactly when the oracle reports the merge base of the two to be the best
parent's tip; a NotFound answer leaves the best parent unchanged. -/
theorem best_parent_replacement_rule (oracle : Oracle) (child cand b : BranchInfo)
    (rest : List BranchInfo)
    (hskip : ¬(child.name = cand.name ∨ cand.oid = child.oid))
    (hanc : oracle cand.oid child.oid = .ok cand.oid)
    (hne : b.oid ≠ cand.oid) :
    (∀ r, oracle b.oid cand.oid = .ok r →
      resolveInner oracle child (cand :: rest) (some b) =
        resolveInner oracle child rest (some (if r = b.oid then cand else b)))
    ∧ (oracle b.oid cand.oid = .notFound →
      resolveInner oracle child (cand :: rest) (some b) =
        resolveInner oracle child rest (some b)) := by
  constructor
  · intro r hr
    by_cases h : r = b.oid <;>
      simp [resolveInner, if_neg hskip, hanc, hne, hr, h]
  · intro hnf
    simp [resolveInner, if_neg hskip, hanc, hne, hnf]

theorem best_parent_replacement_rule_witness :
    ((∀ r, (fun x y => MergeBaseResult.ok (min x y)) 0 1 = MergeBaseResult.ok r →
      resolveInner (fun x y => MergeBaseResult.ok (min x y)) ⟨"c", 2⟩ [⟨"b", 1⟩]
          (some ⟨"a", 0⟩) =
        resolveInner (fun x y => MergeBaseResult.ok (min x y)) ⟨"c", 2⟩ []
          (some (if r = 0 then ⟨"b", 1⟩ else ⟨"a", 0⟩)))
    ∧ ((fun x y => MergeBaseResult.ok (min x y)) 0 1 = MergeBaseResult.notFound →
      resolveInner (fun x y => MergeBaseResult.ok (min x y)) ⟨"c", 2⟩ [⟨"b", 1⟩]
          (some ⟨"a", 0⟩) =
        resolveInner (fun x y => MergeBaseResult.ok (min x y)) ⟨"c", 2⟩ []
          (some ⟨"a", 0⟩))) :=
  best_parent_replacement_rule (fun x y => .ok (min x y)) ⟨"c", 2⟩ ⟨"b", 1⟩ ⟨"a", 0⟩ []
    (by simp) rfl (by simp)

/-! ### Determinism (C7) -/

/-- C7: the resolver is deterministic — its result depends only on the
branch list and the oracle answers; there is no other input. -/
theorem resolver_deterministic (o1 o2 : Oracle) (branches : List BranchInfo)
    (h : ∀ x y, o1 x y = o2 x y) :
    get_parent_of_relationships o1 branches = get_parent_of_relationships o2 branches := by
  have he : o1 = o2 := funext fun x => funext fun y => h x y
  rw [he]

theorem resolver_deterministic_witness :
    get_parent_of_relationships (fun _ _ => .notFound) [⟨"a", 0⟩] =
      get_parent_of_relationships (fun x _ => if x = x then .notFound else .ok 0) [⟨"a", 0⟩] :=
  resolver_deterministic _ _ _ (fun x y => by simp)

/-! ### Parent-relation invariants (C2) and root-set characterization (C5, C10) -/

theorem hmInsert_mem (k v : String) :
    ∀ (l : List (String × String)) (c p : String),
      (c, p) ∈ hmInsert k v l → (c = k ∧ p = v) ∨ (c, p) ∈ l := by
  intro l
  induction l with
  | nil =>
    intro c p h
    simp [hmInsert] at h
    exact Or.inl h
  | cons kv rest ih =>
    intro c p h
    obtain ⟨k', v'⟩ := kv
    simp only [hmInsert] at h
    split at h
    · rcases List.mem_cons.mp h with h' | h'
      · exact Or.inl (Prod.ext_iff.mp h')
      · exact Or.inr (List.mem_cons_of_mem _ h')
    · rcases List.mem_cons.mp h with h' | h'
      · exact Or.inr (h' ▸ List.mem_cons_self _ _)
      · rcases ih _ _ h' with h'' | h''
        · exact Or.inl h''
        · exact Or.inr (List.mem_cons_of_mem _ h'')

theorem resolveInner_some_source (oracle : Oracle) (child : BranchInfo) :
    ∀ (cands : List BranchInfo) (best : Option BranchInfo) (b : BranchInfo),
      resolveInner oracle child cands best = .ok (some b) →
      best = some b ∨ (b ∈ cands ∧ child.name ≠ b.name ∧ b.oid ≠ child.oid) := by
  intro cands
  induction cands with
  | nil =>
    intro best b h
    simp only [resolveInner] at h
    injection h with h
    exact Or.inl h
  | cons cand rest ih =>
    intro best b h
    have hcons : ∀ hm : b ∈ rest, b ∈ cand :: rest := fun hm => List.mem_cons_of_mem _ hm
    simp only [resolveInner] at h
    split at h
    · rcases ih _ _ h with h' | ⟨hm, h1, h2⟩
      · exact Or.inl h'
      · exact Or.inr ⟨hcons hm, h1, h2⟩
    · rename_i hskip
      split at h
      · split at h
        · split at h
          · -- best = none, adopted cand
            rcases ih _ _ h with h' | ⟨hm, h1, h2⟩
            · injection h' with h'
              subst h'
              exact Or.inr ⟨List.mem_cons_self _ _,
                fun he => hskip (Or.inl he), fun he => hskip (Or.inr he)⟩
            · exact Or.inr ⟨hcons hm, h1, h2⟩
          · -- best = some b0
            rename_i b0
            split at h
            · split at h
              · split at h
                · -- replaced by cand
                  rcases ih _ _ h with h' | ⟨hm, h1, h2⟩
                  · injection h' with h'
                    subst h'
                    exact Or.inr ⟨List.mem_cons_self _ _,
                      fun he => hskip (Or.inl he), fun he => hskip (Or.inr he)⟩
                  · exact Or.inr ⟨hcons hm, h1, h2⟩
                · -- kept b0
                  rcases ih _ _ h with h' | ⟨hm, h1, h2⟩
                  · exact Or.inl h'
                  · exact Or.inr ⟨hcons hm, h1, h2⟩
              · rcases ih _ _ h with h' | ⟨hm, h1, h2⟩
                · exact Or.inl h'
                · exact Or.inr ⟨hcons hm, h1, h2⟩
              · exact absurd h (by simp)
            · rcases ih _ _ h with h' | ⟨hm, h1, h2⟩
              · exact Or.inl h'
              · exact Or.inr ⟨hcons hm, h1, h2⟩
        · rcases ih _ _ h with h' | ⟨hm, h1, h2⟩
          · exact Or.inl h'
          · exact Or.inr ⟨hcons hm, h1, h2⟩
      · rcases ih _ _ h with h' | ⟨hm, h1, h2⟩
        · exact Or.inl h'
        · exact Or.inr ⟨hcons hm, h1, h2⟩
      · exact absurd h (by simp)

theorem gporGo_mem (oracle : Oracle) (all : List BranchInfo) :
    ∀ (rest : List BranchInfo) (acc pf : List (String × String)),
      gporGo oracle all rest acc = .ok pf →
      ∀ c p, (c, p) ∈ pf → (c, p) ∈ acc ∨
        ∃ child bp, child ∈ rest ∧ c = child.name ∧ p = bp.name ∧
          resolveInner oracle child all none = .ok (some bp) := by
  intro rest
  induction rest with
  | nil =>
    intro acc pf h c p hm
    simp only [gporGo] at h
    injection h with h
    exact Or.inl (h ▸ hm)
  | cons child rest ih =>
    intro acc pf h c p hm
    simp only [gporGo] at h
    split at h
    · exact absurd h (by simp)
    · rename_i hR
      rcases ih _ _ h c p hm with h' | ⟨ch, bp, hch, h1, h2, h3⟩
      · exact Or.inl h'
      · exact Or.inr ⟨ch, bp, List.mem_cons_of_mem _ hch, h1, h2, h3⟩
    · rename_i p0 hR
      rcases ih _ _ h c p hm with h' | ⟨ch, bp, hch, h1, h2, h3⟩
      · rcases hmInsert_mem _ _ _ _ _ h' with ⟨h1, h2⟩ | h''
        · exact Or.inr ⟨child, p0, List.mem_cons_self _ _, h1, h2, hR⟩
        · exact Or.inl h''
      · exact Or.inr ⟨ch, bp, List.mem_cons_of_mem _ hch, h1, h2, h3⟩


/-- C2: the parent relation never maps a branch to itself, and (for uniquely
named branch sets) never relates two branches with the same tip. -/
theorem resolver_no_self_parent (oracle : Oracle) (branches : List BranchInfo)
    (pf : List (String × String))
    (h : get_parent_of_relationships oracle branches = .ok pf) :
    (∀ c p, (c, p) ∈ pf → c ≠ p)
    ∧ ((branches.map BranchInfo.name).Nodup →
      ∀ c p b1 b2, (c, p) ∈ pf → b1 ∈ branches → b2 ∈ branches →
        b1.name = c → b2.name = p → b1.oid ≠ b2.oid) := by
  constructor
  · intro c p hm
    rcases gporGo_mem oracle branches branches [] pf h c p hm with h' | ⟨ch, bp, hch, h1, h2, h3⟩
    · simp at h'
    · rcases resolveInner_some_source oracle ch branches none bp h3 with h'' | ⟨_, hname, _⟩
      · exact absurd h'' (by simp)
      · subst h1; subst h2; exact hname
  · intro hnd c p b1 b2 hm hb1 hb2 hn1 hn2
    rcases gporGo_mem oracle branches branches [] pf h c p hm with h' | ⟨ch, bp, hch, h1, h2, h3⟩
    · simp at h'
    · rcases resolveInner_some_source oracle ch branches none bp h3 with h'' | ⟨hbpmem, hname, hoid⟩
      · exact absurd h'' (by simp)
      · have hinj := List.inj_on_of_nodup_map hnd
        have e1 : b1 = ch := hinj hb1 hch (by rw [hn1, h1])
        have e2 : b2 = bp := hinj hb2 hbpmem (by rw [hn2, h2])
        rw [e1, e2]
        exact fun he => hoid he.symm

theorem resolver_no_self_parent_witness :
    (∀ c p, (c, p) ∈ [("b", "a")] → c ≠ p)
    ∧ ((([⟨"a", 0⟩, ⟨"b", 1⟩] : List BranchInfo).map BranchInfo.name).Nodup →
      ∀ c p b1 b2, (c, p) ∈ [("b", "a")] →
        b1 ∈ ([⟨"a", 0⟩, ⟨"b", 1⟩] : List BranchInfo) →
        b2 ∈ ([⟨"a", 0⟩, ⟨"b", 1⟩] : List BranchInfo) →
        b1.name = c → b2.name = p → b1.oid ≠ b2.oid) :=
  resolver_no_self_parent (fun x y => .ok (min x y)) [⟨"a", 0⟩, ⟨"b", 1⟩] [("b", "a")] rfl

theorem roots_mem_iff (branches : List BranchInfo) (pf : List (String × String)) (n : String) :
    n ∈ (build_children_and_roots branches pf).roots ↔
      n ∈ branches.map BranchInfo.name ∧ n ∉ pf.map Prod.fst := by
  simp [build_children_and_roots, List.mem_insertionSort, List.mem_filter, List.mem_dedup]


theorem resolveInner_none_of_unrelated (oracle : Oracle) (branches : List BranchInfo)
    (hun : ∀ b1 b2, b1 ∈ branches → b2 ∈ branches → b1.oid ≠ b2.oid →
      oracle b1.oid b2.oid = .notFound)
    (child : BranchInfo) (hchild : child ∈ branches) :
    ∀ (cands : List BranchInfo), (∀ x ∈ cands, x ∈ branches) →
      resolveInner oracle child cands none = .ok none := by
  intro cands
  induction cands with
  | nil => intro _; rfl
  | cons cand rest ih =>
    intro hsub
    simp only [resolveInner]
    by_cases hskip : child.name = cand.name ∨ cand.oid = child.oid
    · rw [if_pos hskip]
      exact ih (fun x hx => hsub x (List.mem_cons_of_mem _ hx))
    · rw [if_neg hskip]
      have hne : cand.oid ≠ child.oid := fun he => hskip (Or.inr he)
      have hO := hun cand child (hsub cand (List.mem_cons_self _ _)) hchild hne
      rw [hO]
      exact ih (fun x hx => hsub x (List.mem_cons_of_mem _ hx))

theorem gporGo_all_none (oracle : Oracle) (all : List BranchInfo) :
    ∀ (rest : List BranchInfo) (acc : List (String × String)),
      (∀ child ∈ rest, resolveInner oracle child all none = .ok none) →
      gporGo oracle all rest acc = .ok acc := by
  intro rest
  induction rest with
  | nil => intro acc _; rfl
  | cons child rest ih =>
    intro acc hall
    simp only [gporGo]
    rw [hall child (List.mem_cons_self _ _)]
    exact ih acc (fun c hc => hall c (List.mem_cons_of_mem _ hc))

/-- C5: the root set is exactly the branch names minus the parent-of keys;
for pairwise-unrelated branch sets the parent relation is empty and the root
set is the full name set. -/
theorem roots_are_name_complement (oracle : Oracle) (branches : List BranchInfo) :
    (∀ (pf : List (String × String)) (n : String),
      n ∈ (build_children_and_roots branches pf).roots ↔
        n ∈ branches.map BranchInfo.name ∧ n ∉ pf.map Prod.fst)
    ∧ ((∀ b1 b2, b1 ∈ branches → b2 ∈ branches → b1.oid ≠ b2.oid →
        oracle b1.oid b2.oid = .notFound) →
      get_parent_of_relationships oracle branches = .ok []
      ∧ ∀ n, n ∈ (build_children_and_roots branches []).roots ↔
          n ∈ branches.map BranchInfo.name) := by
  constructor
  · exact fun pf n => roots_mem_iff branches pf n
  · intro hun
    constructor
    · exact gporGo_all_none oracle branches branches []
        (fun child hc =>
          resolveInner_none_of_unrelated oracle branches hun child hc branches
            (fun x hx => hx))
    · intro n
      rw [roots_mem_iff]
      simp

theorem roots_are_name_complement_witness :
    get_parent_of_relationships (fun _ _ => .notFound) [⟨"a", 0⟩, ⟨"b", 1⟩] = .ok []
    ∧ ∀ n, n ∈ (build_children_and_roots [⟨"a", 0⟩, ⟨"b", 1⟩] []).roots ↔
        n ∈ ([⟨"a", 0⟩, ⟨"b", 1⟩] : List BranchInfo).map BranchInfo.name :=
  (roots_are_name_complement (fun _ _ => .notFound) [⟨"a", 0⟩, ⟨"b", 1⟩]).2
    (fun _ _ _ _ _ => rfl)

/-- C10: on Forest Builder output with a non-empty branch set and an empty
parent relation the root set is non-empty (it is the full name set), so the
renderer's empty-roots fallbacks are unreachable there and rendering goes
through the normal root loop. -/
theorem all_isolated_path_unreachable (fuel : Nat) (branches : List BranchInfo)
    (cm : List (String × List String)) (h1 : branches ≠ []) :
    (build_children_and_roots branches []).roots ≠ []
    ∧ (∀ n, n ∈ (build_children_and_roots branches []).roots ↔
        n ∈ branches.map BranchInfo.name)
    ∧ (∀ (pf : List (String × String)) (roots : List String), roots ≠ [] →
      print_tree fuel branches pf cm roots =
        .ok (roots.flatMap
          (fun r => displayName r :: print_ascii_tree_recursive fuel r cm ""), [])) := by
  have hchar : ∀ n, n ∈ (build_children_and_roots branches []).roots ↔
      n ∈ branches.map BranchInfo.name := by
    intro n
    rw [roots_mem_iff]
    simp
  refine ⟨?_, hchar, ?_⟩
  · obtain ⟨b, hb⟩ := List.exists_mem_of_ne_nil branches h1
    have : b.name ∈ (build_children_and_roots branches []).roots :=
      (hchar b.name).mpr (List.mem_map_of_mem _ hb)
    exact List.ne_nil_of_mem this
  · intro pf roots hne
    rw [print_tree, if_neg]
    intro hc
    exact hne (List.isEmpty_iff.mp hc.1)

theorem all_isolated_path_unreachable_witness :
    (build_children_and_roots [⟨"a", 0⟩] []).roots ≠ []
    ∧ (∀ n, n ∈ (build_children_and_roots [⟨"a", 0⟩] []).roots ↔
        n ∈ ([⟨"a", 0⟩] : List BranchInfo).map BranchInfo.name)
    ∧ (∀ (pf : List (String × String)) (roots : List String), roots ≠ [] →
      print_tree 1 [⟨"a", 0⟩] pf [] roots =
        .ok (roots.flatMap
          (fun r => displayName r :: print_ascii_tree_recursive 1 r [] ""), [])) :=
  all_isolated_path_unreachable 1 [⟨"a", 0⟩] [] (by simp)


/-! ### Sortedness of the Forest Builder output (C6) -/

theorem cmInsert_keys_mem (p c : String) :
    ∀ (m : List (String × List String)) (x : String),
      x ∈ (cmInsert p c m).map Prod.fst → x = p ∨ x ∈ m.map Prod.fst := by
  intro m
  induction m with
  | nil =>
    intro x h
    simp [cmInsert] at h
    exact Or.inl h
  | cons kv rest ih =>
    intro x h
    obtain ⟨k, vs⟩ := kv
    simp only [cmInsert] at h
    split at h
    · rcases List.mem_cons.mp h with h' | h'
      · exact Or.inl h'
      · exact Or.inr h'
    · split at h
      · rcases List.mem_cons.mp h with h' | h'
        · exact Or.inr (by simp [h'])
        · exact Or.inr (List.mem_cons_of_mem _ h')
      · rcases List.mem_cons.mp h with h' | h'
        · exact Or.inr (by simp [h'])
        · rcases ih _ h' with h'' | h''
          · exact Or.inl h''
          · exact Or.inr (List.mem_cons_of_mem _ h'')

theorem cmInsert_keys_sorted (p c : String) :
    ∀ (m : List (String × List String)),
      List.Sorted strLt (m.map Prod.fst) →
      List.Sorted strLt ((cmInsert p c m).map Prod.fst) := by
  intro m
  induction m with
  | nil =>
    intro _
    simp [cmInsert]
  | cons kv rest ih =>
    intro h
    obtain ⟨k, vs⟩ := kv
    simp only [List.map_cons] at h
    rw [List.sorted_cons] at h
    obtain ⟨hk, hrest⟩ := h
    simp only [cmInsert]
    split
    · rename_i h1
      simp only [List.map_cons]
      rw [List.sorted_cons]
      refine ⟨?_, ?_⟩
      · intro b hb
        rcases List.mem_cons.mp hb with rfl | hb'
        · exact h1
        · exact strLt_trans h1 (hk b hb')
      · rw [List.sorted_cons]
        exact ⟨hk, hrest⟩
    · rename_i h1
      split
      · rename_i h2
        subst h2
        simp only [List.map_cons]
        rw [List.sorted_cons]
        exact ⟨hk, hrest⟩
      · rename_i h2
        simp only [List.map_cons]
        rw [List.sorted_cons]
        refine ⟨?_, ih hrest⟩
        · intro b hb
          rcases cmInsert_keys_mem p c rest b hb with rfl | hb'
          · rcases strLt_connex (fun he => h2 he.symm : k ≠ b) with h' | h'
            · exact h'
            · exact absurd h' h1
          · exact hk b hb'

theorem forest_keys_sorted (parent_of : List (String × String)) :
    ∀ m, List.Sorted strLt (m.map Prod.fst) →
      List.Sorted strLt
        ((parent_of.foldl (fun m cp => cmInsert cp.2 cp.1 m) m).map Prod.fst) := by
  induction parent_of with
  | nil => intro m h; exact h
  | cons cp rest ih =>
    intro m h
    exact ih _ (cmInsert_keys_sorted _ _ _ h)

/-- C6: the Forest Builder output is deterministic in order: every child list
is sorted, the children-map keys are strictly sorted, and the root list is
sorted — for every input branch list and parent relation. -/
theorem builder_output_sorted (branches : List BranchInfo) (pf : List (String × String)) :
    (∀ kv ∈ (build_children_and_roots branches pf).children_map,
      List.Sorted strLe kv.2)
    ∧ List.Sorted strLt
        ((build_children_and_roots branches pf).children_map.map Prod.fst)
    ∧ List.Sorted strLe (build_children_and_roots branches pf).roots := by
  refine ⟨?_, ?_, ?_⟩
  · intro kv hkv
    simp only [build_children_and_roots] at hkv
    obtain ⟨kv0, -, rfl⟩ := List.mem_map.mp hkv
    exact List.sorted_insertionSort strLe _
  · simp only [build_children_and_roots, List.map_map]
    have he : (Prod.fst ∘ fun kv : String × List String =>
        (kv.1, List.insertionSort strLe kv.2)) = Prod.fst := funext fun kv => rfl
    rw [he]
    exact forest_keys_sorted pf [] (by simp)
  · simp only [build_children_and_roots]
    exact List.sorted_insertionSort strLe _

theorem builder_output_sorted_witness :
    (∀ kv ∈ (build_children_and_roots [⟨"a", 0⟩] [("b", "a"), ("c", "a")]).children_map,
      List.Sorted strLe kv.2)
    ∧ List.Sorted strLt
        ((build_children_and_roots [⟨"a", 0⟩] [("b", "a"), ("c", "a")]).children_map.map Prod.fst)
    ∧ List.Sorted strLe (build_children_and_roots [⟨"a", 0⟩] [("b", "a"), ("c", "a")]).roots :=
  builder_output_sorted [⟨"a", 0⟩] [("b", "a"), ("c", "a")]


/-! ### Renderer fallback and header formatting (C8, C9) -/

/-- C8: with empty roots, a non-empty parent relation and non-empty branches,
the renderer emits the diagnostic warning on stderr and falls back to the
flat branch-name listing (sorted whenever the branch list is name-sorted, as
the orchestrator guarantees), returning success. -/
theorem ambiguous_case_flat_fallback (fuel : Nat) (branches : List BranchInfo)
    (pf : List (String × String)) (cm : List (String × List String))
    (h1 : branches ≠ []) (h2 : pf ≠ [])
    (hs : List.Sorted strLe (branches.map BranchInfo.name)) :
    ∃ out, print_tree fuel branches pf cm [] = .ok (out, [warningMessage])
      ∧ out = branches.map BranchInfo.name ∧ List.Sorted strLe out := by
  refine ⟨branches.map BranchInfo.name, ?_, rfl, hs⟩
  simp [print_tree, List.isEmpty_iff, h1, h2]

theorem ambiguous_case_flat_fallback_witness :
    ∃ out, print_tree 0 [⟨"a", 0⟩] [("a", "x")] [] [] = .ok (out, [warningMessage])
      ∧ out = ([⟨"a", 0⟩] : List BranchInfo).map BranchInfo.name
      ∧ List.Sorted strLe out :=
  ambiguous_case_flat_fallback 0 [⟨"a", 0⟩] [("a", "x")] [] (by simp) (by simp) (by simp)

theorem lookupChildren_mem (p : String) (vs : List String) :
    ∀ cm : List (String × List String),
      lookupChildren p cm = some vs → (p, vs) ∈ cm := by
  intro cm
  induction cm with
  | nil => intro h; simp [lookupChildren] at h
  | cons kv rest ih =>
    intro h
    obtain ⟨k, vs'⟩ := kv
    simp only [lookupChildren] at h
    split at h
    · rename_i he
      injection h with h
      subst he; subst h
      exact List.mem_cons_self _ _
    · exact List.mem_cons_of_mem _ (ih h)

theorem subtree_lines_shape (cm : List (String × List String)) :
    ∀ (fuel : Nat) (p pfx line : String),
      line ∈ print_ascii_tree_recursive fuel p cm pfx →
      ∃ q n, (line = q ++ "├── " ++ n ∨ line = q ++ "└── " ++ n)
        ∧ ∃ k vs, (k, vs) ∈ cm ∧ n ∈ vs := by
  intro fuel
  induction fuel with
  | zero => intro p pfx line h; simp [print_ascii_tree_recursive] at h
  | succ fuel ih =>
    intro p pfx line h
    simp only [print_ascii_tree_recursive] at h
    cases hlk : lookupChildren p cm with
    | none => rw [hlk] at h; simp at h
    | some children =>
      rw [hlk] at h
      rw [List.mem_flatMap] at h
      obtain ⟨ic, hic, hline⟩ := h
      have hmem : ic.2 ∈ children :=
        List.getElem?_mem (List.mem_enum_iff_getElem?.mp hic)
      rcases List.mem_cons.mp hline with rfl | hrec
      · by_cases hlast : ic.1 = children.length - 1
        · exact ⟨pfx, ic.2, Or.inr (by simp [hlast]),
            p, children, lookupChildren_mem p children cm hlk, hmem⟩
        · exact ⟨pfx, ic.2, Or.inl (by simp [hlast]),
            p, children, lookupChildren_mem p children cm hlk, hmem⟩
      · exact ih ic.2 _ line hrec

/-- C9: root headers are printed through `displayName`: bare for exactly the
five mainline names, otherwise bright-red `(detached)`, reset, space, name;
and the lines of the recursive child printer are always connector-prefixed
child names, never detached-prefixed headers. -/
theorem header_formatting (fuel : Nat) (branches : List BranchInfo)
    (pf : List (String × String)) (cm : List (String × List String))
    (roots : List String) :
    (∀ nm : String,
      ((nm = "main" ∨ nm = "master" ∨ nm = "develop" ∨ nm = "dev" ∨ nm = "local-dev") →
        displayName nm = nm)
      ∧ (¬(nm = "main" ∨ nm = "master" ∨ nm = "develop" ∨ nm = "dev" ∨ nm = "local-dev") →
        displayName nm = RED_START ++ DETACHED_PREFIX_TEXT ++ COLOR_RESET ++ " " ++ nm))
    ∧ (roots ≠ [] →
      print_tree fuel branches pf cm roots =
        .ok (roots.flatMap
          (fun r => displayName r :: print_ascii_tree_recursive fuel r cm ""), []))
    ∧ (∀ (p pfx line : String), line ∈ print_ascii_tree_recursive fuel p cm pfx →
      ∃ q n, (line = q ++ "├── " ++ n ∨ line = q ++ "└── " ++ n)
        ∧ ∃ k vs, (k, vs) ∈ cm ∧ n ∈ vs) := by
  refine ⟨?_, ?_, ?_⟩
  · intro nm
    constructor
    · intro h
      rcases h with rfl | rfl | rfl | rfl | rfl <;> rfl
    · intro h
      rw [displayName, if_neg]
      intro hc
      simp [MAINLINE_BRANCH_NAMES_ARRAY] at hc
      exact h hc
  · intro hne
    rw [print_tree, if_neg]
    intro hc
    exact hne (List.isEmpty_iff.mp hc.1)
  · exact fun p pfx line h => subtree_lines_shape cm fuel p pfx line h

theorem header_formatting_witness :
    print_tree 1 [⟨"x", 0⟩] [] [] ["x"] =
      .ok ((["x"].flatMap
        (fun r => displayName r :: print_ascii_tree_recursive 1 r [] "")), []) :=
  (header_formatting 1 [⟨"x", 0⟩] [] [] ["x"]).2.1 (by simp)


/-! ### The linear-chain theorem (C1) -/

theorem resolveInner_step_skip (oracle : Oracle) (child cand : BranchInfo)
    (rest : List BranchInfo) (best : Option BranchInfo)
    (h : child.name = cand.name ∨ cand.oid = child.oid) :
    resolveInner oracle child (cand :: rest) best =
      resolveInner oracle child rest best := by
  simp only [resolveInner]
  rw [if_pos h]

theorem resolveInner_step_notAncestor (oracle : Oracle) (child cand : BranchInfo)
    (rest : List BranchInfo) (best : Option BranchInfo) (base : Nat)
    (h2 : oracle cand.oid child.oid = .ok base) (h3 : base ≠ cand.oid) :
    resolveInner oracle child (cand :: rest) best =
      resolveInner oracle child rest best := by
  simp [resolveInner, h2, h3]

theorem resolveInner_step_adopt (oracle : Oracle) (child cand : BranchInfo)
    (rest : List BranchInfo)
    (h1 : ¬(child.name = cand.name ∨ cand.oid = child.oid))
    (h2 : oracle cand.oid child.oid = .ok cand.oid) :
    resolveInner oracle child (cand :: rest) none =
      resolveInner oracle child rest (some cand) := by
  simp [resolveInner, if_neg h1, h2]

theorem resolveInner_step_replace (oracle : Oracle) (child cand b : BranchInfo)
    (rest : List BranchInfo)
    (h1 : ¬(child.name = cand.name ∨ cand.oid = child.oid))
    (h2 : oracle cand.oid child.oid = .ok cand.oid)
    (h3 : b.oid ≠ cand.oid)
    (h4 : oracle b.oid cand.oid = .ok b.oid) :
    resolveInner oracle child (cand :: rest) (some b) =
      resolveInner oracle child rest (some cand) := by
  simp [resolveInner, if_neg h1, h2, h3, h4]





theorem chain_resolveInner (oracle : Oracle) (names : Nat → String) (tip : Nat → Nat)
    (N : Nat)
    (hnames : ∀ i j, i < N → j < N → names i = names j → i = j)
    (htip : ∀ i j, i < N → j < N → tip i = tip j → i = j)
    (horacle : ∀ i j, i < N → j < N → oracle (tip i) (tip j) = .ok (tip (min i j)))
    (i : Nat) (hi : i < N) :
    ∀ (m k : Nat), k + m = N →
      resolveInner oracle ⟨names i, tip i⟩
        ((List.range' k m).map (fun j => ⟨names j, tip j⟩))
        (chainBest names tip i k) = .ok (chainBest names tip i N) := by
  intro m
  induction m with
  | zero =>
    intro k hk
    have : k = N := by omega
    subst this
    rfl
  | succ m ih =>
    intro k hk
    have hkN : k < N := by omega
    rw [List.range'_succ, List.map_cons]
    have hstep : resolveInner oracle ⟨names i, tip i⟩
        ((⟨names k, tip k⟩ : BranchInfo) ::
          (List.range' (k + 1) m).map (fun j => ⟨names j, tip j⟩))
        (chainBest names tip i k) =
        resolveInner oracle ⟨names i, tip i⟩
          ((List.range' (k + 1) m).map (fun j => ⟨names j, tip j⟩))
          (chainBest names tip i (k + 1)) := by
      by_cases hik : i = k
      · -- the candidate is the child itself: skipped, best unchanged
        subst hik
        have hbeq : chainBest names tip i i = chainBest names tip i (i + 1) := by
          by_cases h0 : i = 0
          · simp [chainBest, h0]
          · simp [chainBest, h0, Nat.min_self,
              Nat.min_eq_right (Nat.le_succ i)]
        rw [resolveInner_step_skip oracle _ _ _ _ (Or.inl rfl), hbeq]
      · have hname : names i ≠ names k := fun he => hik (hnames i k hi hkN he)
        have htipne : tip k ≠ tip i := fun he => hik (htip k i hkN hi he).symm
        have hcond : ¬((⟨names i, tip i⟩ : BranchInfo).name =
            (⟨names k, tip k⟩ : BranchInfo).name ∨
            (⟨names k, tip k⟩ : BranchInfo).oid = (⟨names i, tip i⟩ : BranchInfo).oid) := by
          push_neg
          exact ⟨hname, htipne⟩
        rcases Nat.lt_or_ge k i with hki | hki
        · -- candidate k is a true ancestor of child i
          have hi0 : ¬ i = 0 := by omega
          have hanc : oracle (⟨names k, tip k⟩ : BranchInfo).oid
              (⟨names i, tip i⟩ : BranchInfo).oid =
              .ok (⟨names k, tip k⟩ : BranchInfo).oid := by
            have := horacle k i hkN hi
            rwa [Nat.min_eq_left (Nat.le_of_lt hki)] at this
          by_cases hk0 : k = 0
          · -- first ancestor found: adopt it
            subst hk0
            have hb0 : chainBest names tip i 0 = none := by simp [chainBest]
            have hb1 : chainBest names tip i 1 = some ⟨names 0, tip 0⟩ := by
              simp [chainBest, hi0, Nat.min_eq_left (by omega : 1 ≤ i)]
            rw [hb0, hb1, resolveInner_step_adopt oracle _ _ _ hcond hanc]
          · -- previous best is branch k-1, replaced by branch k
            have hbk : chainBest names tip i k =
                some ⟨names (k - 1), tip (k - 1)⟩ := by
              rw [chainBest, if_neg (by omega)]
              rw [Nat.min_eq_left (Nat.le_of_lt hki)]
            have hbk1 : chainBest names tip i (k + 1) =
                some ⟨names k, tip k⟩ := by
              rw [chainBest, if_neg (by omega)]
              rw [Nat.min_eq_left (by omega : k + 1 ≤ i)]
              simp
            have hbne : (⟨names (k - 1), tip (k - 1)⟩ : BranchInfo).oid ≠
                (⟨names k, tip k⟩ : BranchInfo).oid :=
              fun he => absurd (htip (k - 1) k (by omega) hkN he) (by omega)
            have hor : oracle (⟨names (k - 1), tip (k - 1)⟩ : BranchInfo).oid
                (⟨names k, tip k⟩ : BranchInfo).oid =
                .ok (⟨names (k - 1), tip (k - 1)⟩ : BranchInfo).oid := by
              have := horacle (k - 1) k (by omega) hkN
              rwa [Nat.min_eq_left (by omega : k - 1 ≤ k)] at this
            rw [hbk, hbk1,
              resolveInner_step_replace oracle _ _ _ _ hcond hanc hbne hor]
        · -- k > i: the candidate is a strict descendant, not an ancestor
          have hki' : i < k := by omega
          have hne : tip i ≠ (⟨names k, tip k⟩ : BranchInfo).oid :=
            fun he => hik (htip i k hi hkN he)
          have hbase : oracle (⟨names k, tip k⟩ : BranchInfo).oid
              (⟨names i, tip i⟩ : BranchInfo).oid = .ok (tip i) := by
            have := horacle k i hkN hi
            rwa [Nat.min_eq_right (Nat.le_of_lt hki')] at this
          have hbeq : chainBest names tip i k = chainBest names tip i (k + 1) := by
            by_cases h0 : i = 0
            · simp [chainBest, h0]
            · rw [chainBest, chainBest, if_neg (by omega), if_neg (by omega),
                Nat.min_eq_right (Nat.le_of_lt hki'),
                Nat.min_eq_right (by omega : i ≤ k + 1)]
          rw [resolveInner_step_notAncestor oracle _ _ _ _ (tip i) hbase hne, hbeq]
    rw [hstep]
    exact ih (k + 1) (by omega)


theorem hmInsert_append (k v : String) :
    ∀ (l : List (String × String)), k ∉ l.map Prod.fst →
      hmInsert k v l = l ++ [(k, v)] := by
  intro l
  induction l with
  | nil => intro _; rfl
  | cons kv rest ih =>
    intro h
    obtain ⟨k', v'⟩ := kv
    simp only [List.map_cons, List.mem_cons] at h
    push_neg at h
    simp only [hmInsert]
    rw [if_neg (fun he => h.1 he.symm), ih h.2]
    rfl

theorem chain_gporGo (oracle : Oracle) (names : Nat → String) (tip : Nat → Nat)
    (N : Nat)
    (hnames : ∀ i j, i < N → j < N → names i = names j → i = j)
    (htip : ∀ i j, i < N → j < N → tip i = tip j → i = j)
    (horacle : ∀ i j, i < N → j < N → oracle (tip i) (tip j) = .ok (tip (min i j))) :
    ∀ (m k : Nat), 1 ≤ k → k + m = N →
      gporGo oracle (chainBranches names tip N)
        ((List.range' k m).map (fun j => ⟨names j, tip j⟩))
        ((List.range' 1 (k - 1)).map (fun i => (names i, names (i - 1)))) =
      .ok (chainParentOf names N) := by
  intro m
  induction m with
  | zero =>
    intro k h1 hk
    have : k = N := by omega
    subst this
    rfl
  | succ m ih =>
    intro k h1 hk
    have hkN : k < N := by omega
    rw [List.range'_succ, List.map_cons]
    have hres : resolveInner oracle ⟨names k, tip k⟩ (chainBranches names tip N) none =
        .ok (some ⟨names (k - 1), tip (k - 1)⟩) := by
      have h0 : chainBest names tip k 0 = none := by simp [chainBest]
      have hNb : chainBest names tip k N = some ⟨names (k - 1), tip (k - 1)⟩ := by
        rw [chainBest, if_neg (by omega), Nat.min_eq_right (Nat.le_of_lt hkN)]
      have hmain := chain_resolveInner oracle names tip N hnames htip horacle k hkN N 0
        (by omega)
      rw [h0, hNb] at hmain
      rwa [chainBranches, List.range_eq_range']
    have hstep : gporGo oracle (chainBranches names tip N)
        ((⟨names k, tip k⟩ : BranchInfo) ::
          (List.range' (k + 1) m).map (fun j => ⟨names j, tip j⟩))
        ((List.range' 1 (k - 1)).map (fun i => (names i, names (i - 1)))) =
        gporGo oracle (chainBranches names tip N)
          ((List.range' (k + 1) m).map (fun j => ⟨names j, tip j⟩))
          (hmInsert (names k) (names (k - 1))
            ((List.range' 1 (k - 1)).map (fun i => (names i, names (i - 1))))) := by
      simp [gporGo, hres]
    rw [hstep]
    have hfresh : names k ∉
        ((List.range' 1 (k - 1)).map (fun i => (names i, names (i - 1)))).map Prod.fst := by
      rw [List.map_map]
      intro hmem
      obtain ⟨j, hj, he⟩ := List.mem_map.mp hmem
      have hj' := List.mem_range'_1.mp hj
      have : j = k := hnames j k (by omega) hkN he
      omega
    rw [hmInsert_append _ _ _ hfresh]
    have hacc : ((List.range' 1 (k - 1)).map (fun i => (names i, names (i - 1)))) ++
        [(names k, names (k - 1))] =
        (List.range' 1 ((k + 1) - 1)).map (fun i => (names i, names (i - 1))) := by
      have h2 : (k + 1) - 1 = (k - 1) + 1 := by omega
      rw [h2, List.range'_concat, List.map_append]
      have h3 : 1 + (k - 1) = k := by omega
      simp [h3]
    rw [hacc]
    exact ih (k + 1) (by omega) (by omega)

theorem roots_nodup (branches : List BranchInfo) (pf : List (String × String)) :
    (build_children_and_roots branches pf).roots.Nodup := by
  simp only [build_children_and_roots]
  exact ((List.perm_insertionSort strLe _).nodup_iff).mpr
    ((List.nodup_dedup _).filter _)

theorem nodup_mem_singleton {α : Type} {l : List α} {x : α}
    (hnd : l.Nodup) (hmem : ∀ n, n ∈ l ↔ n = x) : l = [x] := by
  cases l with
  | nil => exact absurd ((hmem x).mpr rfl) (List.not_mem_nil x)
  | cons a t =>
    have ha : a = x := (hmem a).mp (List.mem_cons_self a t)
    subst ha
    cases t with
    | nil => rfl
    | cons b t' =>
      have hb : b = a := (hmem b).mp (List.mem_cons_of_mem _ (List.mem_cons_self _ _))
      subst hb
      exact absurd (List.mem_cons_self _ _) (List.nodup_cons.mp hnd).1

/-- C1: on a strictly linear chain of `N` branches (distinct names, distinct
tips, every merge-base query answering the older tip) the resolver returns
the single unbroken parent chain — each branch's parent is its immediate
predecessor — and the Forest Builder computes exactly one root, the oldest
branch. -/
theorem linear_chain_resolution (oracle : Oracle) (names : Nat → String)
    (tip : Nat → Nat) (N : Nat) (hN : 0 < N)
    (hnames : ∀ i j, i < N → j < N → names i = names j → i = j)
    (htip : ∀ i j, i < N → j < N → tip i = tip j → i = j)
    (horacle : ∀ i j, i < N → j < N → oracle (tip i) (tip j) = .ok (tip (min i j))) :
    get_parent_of_relationships oracle (chainBranches names tip N) =
      .ok (chainParentOf names N)
    ∧ (build_children_and_roots (chainBranches names tip N)
        (chainParentOf names N)).roots = [names 0] := by
  obtain ⟨M, rfl⟩ : ∃ M, N = M + 1 := ⟨N - 1, by omega⟩
  constructor
  · rw [get_parent_of_relationships]
    have hr : chainBranches names tip (M + 1) =
        (⟨names 0, tip 0⟩ : BranchInfo) ::
          (List.range' 1 M).map (fun j => ⟨names j, tip j⟩) := by
      rw [chainBranches, List.range_eq_range', List.range'_succ, List.map_cons]
    have hres0 : resolveInner oracle ⟨names 0, tip 0⟩
        (chainBranches names tip (M + 1)) none = .ok none := by
      have h0 : chainBest names tip 0 0 = none := by simp [chainBest]
      have hNb : chainBest names tip 0 (M + 1) = none := by simp [chainBest]
      have hmain := chain_resolveInner oracle names tip (M + 1) hnames htip horacle 0
        (by omega) (M + 1) 0 (by omega)
      rw [h0, hNb] at hmain
      rwa [chainBranches, List.range_eq_range']
    nth_rewrite 2 [hr]
    have hstep : gporGo oracle (chainBranches names tip (M + 1))
        ((⟨names 0, tip 0⟩ : BranchInfo) ::
          (List.range' 1 M).map (fun j => ⟨names j, tip j⟩)) [] =
        gporGo oracle (chainBranches names tip (M + 1))
          ((List.range' 1 M).map (fun j => ⟨names j, tip j⟩)) [] := by
      simp [gporGo, hres0]
    rw [hstep]
    have := chain_gporGo oracle names tip (M + 1) hnames htip horacle M 1 (by omega)
      (by omega)
    simpa using this
  · have hnd := roots_nodup (chainBranches names tip (M + 1)) (chainParentOf names (M + 1))
    have hmem : ∀ n, n ∈ (build_children_and_roots (chainBranches names tip (M + 1))
        (chainParentOf names (M + 1))).roots ↔ n = names 0 := by
      intro n
      rw [roots_mem_iff]
      constructor
      · rintro ⟨hn1, hn2⟩
        simp only [chainBranches, List.map_map] at hn1
        obtain ⟨i, hi, rfl⟩ := List.mem_map.mp hn1
        have hi' := List.mem_range.mp hi
        by_cases h0 : i = 0
        · subst h0; rfl
        · exfalso
          apply hn2
          simp only [chainParentOf, List.map_map]
          exact List.mem_map.mpr ⟨i, List.mem_range'_1.mpr (by omega), rfl⟩
      · rintro rfl
        refine ⟨?_, ?_⟩
        · simp only [chainBranches, List.map_map]
          exact List.mem_map.mpr ⟨0, List.mem_range.mpr (by omega), rfl⟩
        · intro hmem
          simp only [chainParentOf, List.map_map] at hmem
          obtain ⟨j, hj, he⟩ := List.mem_map.mp hmem
          have hj' := List.mem_range'_1.mp hj
          have : j = 0 := hnames j 0 (by omega) (by omega) he
          omega
    exact nodup_mem_singleton hnd hmem


theorem linear_chain_resolution_witness :
    get_parent_of_relationships (fun x y => .ok (min x y))
      (chainBranches
        (fun i => if i = 0 then "main" else if i = 1 then "feature-x" else "feature-x-sub")
        (fun i => i) 3) =
      .ok (chainParentOf
        (fun i => if i = 0 then "main" else if i = 1 then "feature-x" else "feature-x-sub") 3)
    ∧ (build_children_and_roots
        (chainBranches
          (fun i => if i = 0 then "main" else if i = 1 then "feature-x" else "feature-x-sub")
          (fun i => i) 3)
        (chainParentOf
          (fun i => if i = 0 then "main" else if i = 1 then "feature-x" else "feature-x-sub")
          3)).roots = ["main"] :=
  linear_chain_resolution (fun x y => .ok (min x y))
    (fun i => if i = 0 then "main" else if i = 1 then "feature-x" else "feature-x-sub")
    (fun i => i) 3 (by omega)
    (by
      intro i j hi hj h
      interval_cases i <;> interval_cases j <;> first | rfl | exact absurd h (by decide))
    (fun i j _ _ h => h)
    (fun i j _ _ => rfl)


end GitStacked
